import Mathlib

/-!
Verification of the CSV transaction-ingestion program (src/main.py) against its
specification.  Python strings are embedded as lists of characters, Python
`Decimal` values as an inductive `PyDecimal`, and each function of the source
is translated into a computable Lean definition with the same name where
possible.
-/

set_option maxHeartbeats 1000000

/-- Embedding of a Python `str` as a list of characters. -/
abbrev PyStr := List Char

/-- Whitespace characters removed by Python `str.strip()` (ASCII subset). -/
def isPySpace (c : Char) : Bool :=
  c = ' ' || c = '\t' || c = '\n' || c = '\r' || c = '\x0b' || c = '\x0c'

/-- Embedding of Python `str.strip()`: drop leading and trailing whitespace. -/
def pyStrip (s : PyStr) : PyStr :=
  ((s.dropWhile isPySpace).reverse.dropWhile isPySpace).reverse

/-- Embedding of Python `str.rfind(c)`: index of the last occurrence of `c`,
or `-1` when `c` does not occur. -/
def rfind (c : Char) : PyStr → Int
  | [] => -1
  | a :: rest =>
    let r := rfind c rest
    if r ≥ 0 then r + 1 else if a = c then 0 else -1

/-- Split a list at the first character satisfying `p`; the second component
is `none` when no character satisfies `p`. -/
def splitFirst (p : Char → Bool) : PyStr → PyStr × Option PyStr
  | [] => ([], none)
  | c :: rest =>
    if p c then ([], some rest)
    else
      let r := splitFirst p rest
      (c :: r.1, r.2)

/-- The decimal digit character for `n` (clamped to the digit range). -/
def digitChar : Nat → Char
  | 0 => '0' | 1 => '1' | 2 => '2' | 3 => '3' | 4 => '4'
  | 5 => '5' | 6 => '6' | 7 => '7' | 8 => '8' | _ => '9'

/-- Numeric value of a decimal digit character. -/
def dval (c : Char) : Nat :=
  match c with
  | '0' => 0 | '1' => 1 | '2' => 2 | '3' => 3 | '4' => 4
  | '5' => 5 | '6' => 6 | '7' => 7 | '8' => 8 | '9' => 9
  | _ => 0

/-- Value of a run of decimal digit characters, most significant first. -/
def digitsVal (s : PyStr) : Nat :=
  s.foldl (fun a c => 10 * a + dval c) 0

/-- Fuel-driven decimal rendering of a natural number (most significant digit
first); `fuel` bounds the recursion depth. -/
def natReprAux : Nat → Nat → PyStr
  | 0, _ => []
  | fuel + 1, n =>
    if n < 10 then [digitChar n]
    else natReprAux fuel (n / 10) ++ [digitChar (n % 10)]

/-- Decimal rendering of a natural number. -/
def natRepr (n : Nat) : PyStr := natReprAux (n + 1) n

/-- Render `n % 100` as exactly two digit characters, as in Python
two-decimal formatting. -/
def pad2 (n : Nat) : PyStr := [digitChar (n / 10 % 10), digitChar (n % 10)]

/-! ### Decimal values (embedding of Python `decimal.Decimal`) -/

/-- Embedding of a Python `Decimal` value: a finite value is
`sign * coeff * 10 ^ exp`; infinities and NaN are the special values the
`Decimal` constructor also accepts. -/
inductive PyDecimal where
  | finite (sign : Bool) (coeff : Nat) (exp : Int)
  | infinity (sign : Bool)
  | nan
deriving DecidableEq

/-- Numeric (rational) value of a decimal; `none` for NaN and infinities. -/
def PyDecimal.valQ : PyDecimal → Option ℚ
  | .finite sg c e => some ((if sg then (-1 : ℚ) else 1) * (c : ℚ) * (10 : ℚ) ^ e)
  | _ => none

/-- Mantissa of a decimal numeric string: digits with at most one dot, at
least one digit in total.  Returns the coefficient and the number of
fractional digits.  Modelled from the Python standard library decimal
numeric-string grammar. -/
def parseMantissa (s : PyStr) : Option (Nat × Nat) :=
  match splitFirst (fun c => c = '.') s with
  | (ip, none) =>
    if ip ≠ [] ∧ ip.all Char.isDigit then some (digitsVal ip, 0) else none
  | (ip, some fp) =>
    if ip ++ fp ≠ [] ∧ ip.all Char.isDigit ∧ fp.all Char.isDigit then
      some (digitsVal (ip ++ fp), fp.length)
    else none

/-- Optional sign at the front of a numeric string: the stripped tail and
whether the sign was a minus. -/
def pySign (s : PyStr) : Bool × PyStr :=
  match s with
  | [] => (false, [])
  | c :: r =>
    if c = '+' then (false, r)
    else if c = '-' then (true, r)
    else (false, c :: r)

/-- Exponent part of a decimal numeric string: optional sign and a nonempty
run of digits. -/
def parseExpPart (s : PyStr) : Option Int :=
  let p := pySign s
  if p.2 ≠ [] ∧ p.2.all Char.isDigit then
    some (if p.1 then -(digitsVal p.2 : Int) else (digitsVal p.2 : Int))
  else none

/-- Special values of the decimal grammar after the sign: NaN (with optional
payload digits), sNaN, and infinities, all case-insensitive. -/
def parseSpecial (sign : Bool) (l : PyStr) : Option PyDecimal :=
  let low := l.map Char.toLower
  if low = "inf".toList ∨ low = "infinity".toList then some (.infinity sign)
  else if low.take 3 = "nan".toList ∧ (low.drop 3).all Char.isDigit then some .nan
  else if low.take 4 = "snan".toList ∧ (low.drop 4).all Char.isDigit ∧ low.drop 4 ≠ [] then
    some .nan
  else none

/-- Embedding of the Python `Decimal(str)` constructor: strip whitespace,
remove underscores, optional sign, then either a special value or a mantissa
with optional exponent.  Modelled from the Python standard library. -/
def pyDecimalParse (s0 : PyStr) : Option PyDecimal :=
  let s1 := (pyStrip s0).filter (fun c => c ≠ '_')
  let sign := (pySign s1).1
  let rest := (pySign s1).2
  match parseSpecial sign rest with
  | some d => some d
  | none =>
    match splitFirst (fun c => c = 'e' || c = 'E') rest with
    | (mant, none) =>
      (parseMantissa mant).map (fun cf => .finite sign cf.1 (-(cf.2 : Int)))
    | (mant, some ex) =>
      match parseMantissa mant, parseExpPart ex with
      | some cf, some e => some (.finite sign cf.1 (e - (cf.2 : Int)))
      | _, _ => none

/-- Replace every comma by a dot (Python `replace(',', '.')` pointwise). -/
def commaToDot (c : Char) : Char := if c = ',' then '.' else c

/-- The separator branch of `convert_amount` from src/main.py, applied to the
already-stripped string: comma and dot compared by the position of their last
occurrence, only-comma decided by the four-character lookback, a lone dot
kept. -/
def disambiguateSeparators (t : PyStr) : PyStr :=
  if ',' ∈ t ∧ '.' ∈ t then
    if rfind ',' t > rfind '.' t then
      (t.filter (fun c => c ≠ '.')).map commaToDot
    else
      t.filter (fun c => c ≠ ',')
  else if ',' ∈ t then
    if t.length > 3 ∧ t.getD (t.length - 3) ' ' = ',' then t.map commaToDot
    else t.filter (fun c => c ≠ ',')
  else t

/-- Embedding of `convert_amount` from src/main.py: strip dollar signs and
whitespace, disambiguate comma/dot separators, then parse as a `Decimal`.
Failure (the `ValueError` raised by the source) is `none`. -/
def convert_amount (s : PyStr) : Option PyDecimal :=
  pyDecimalParse (disambiguateSeparators (pyStrip (s.filter (fun c => c ≠ '$'))))

/-- The separator (comma or dot) occurring at the rightmost position of the
string, the way §4.1 of the spec words it. -/
def lastSep (s : PyStr) : Option Char :=
  s.reverse.find? (fun c => c = ',' || c = '.')

/-- Disambiguation step of §4.1 of the spec, written following the spec text:
when both separators occur the rightmost one is the decimal separator; when
only the comma occurs the four-character lookback decides; a lone dot is left
unchanged. -/
def specDisambiguate (t : PyStr) : PyStr :=
  if ',' ∈ t ∧ '.' ∈ t then
    if lastSep t = some ',' then (t.filter (fun c => c ≠ '.')).map commaToDot
    else t.filter (fun c => c ≠ ',')
  else if ',' ∈ t then
    if t.length > 3 ∧ t.getD (t.length - 3) ' ' = ',' then t.map commaToDot
    else t.filter (fun c => c ≠ ',')
  else t

/-- The whole AmountParser as §4.1 of the spec words it: strip symbols and
whitespace, disambiguate, parse as an exact decimal. -/
def specConvertAmount (s : PyStr) : Option PyDecimal :=
  pyDecimalParse (specDisambiguate (pyStrip (s.filter (fun c => c ≠ '$'))))

/-! ### Formatting amounts to two decimals (the display collaborator) -/

/-- Round `c / k` to the nearest integer, ties to even (the rounding Python
`Decimal` formatting uses); `k` is assumed positive. -/
def roundHalfEven (c k : Nat) : Nat :=
  let q := c / k
  let r := c % k
  if 2 * r < k then q
  else if 2 * r > k then q + 1
  else if q % 2 = 0 then q else q + 1

/-- Embedding of Python fixed two-decimal formatting of a `Decimal`
(the display collaborator's `"{:.2f}"` in `print_readable_data`). -/
def format2f : PyDecimal → PyStr
  | .nan => "NaN".toList
  | .infinity sg => if sg then "-Infinity".toList else "Infinity".toList
  | .finite sg c e =>
    let n : Nat :=
      if e ≥ -2 then c * 10 ^ (e + 2).toNat
      else roundHalfEven c (10 ^ (-(e + 2)).toNat)
    (if sg then ['-'] else []) ++ natRepr (n / 100) ++ '.' :: pad2 (n % 100)

/-! ### Header normalization (`snake_case` in src/main.py) -/

/-- Insert an underscore before every uppercase letter of the tail
(the interior positions of the regex of `snake_case`). -/
def insertUndGo : PyStr → PyStr
  | [] => []
  | c :: rest =>
    if c.isUpper then '_' :: c :: insertUndGo rest else c :: insertUndGo rest

/-- Embedding of the regex substitution of `snake_case`: an underscore before
each uppercase letter not at the start of the token. -/
def insertUnd : PyStr → PyStr
  | [] => []
  | c :: rest => c :: insertUndGo rest

/-- Collapse every run of underscores to a single underscore
(the final regex substitution of `snake_case`). -/
def collapseU : PyStr → PyStr
  | [] => []
  | [c] => [c]
  | a :: b :: rest =>
    if a = '_' ∧ b = '_' then collapseU (b :: rest)
    else a :: collapseU (b :: rest)

/-- Embedding of `snake_case` from src/main.py. -/
def snake_case (s : PyStr) : PyStr :=
  let parts := s.splitOn '_'
  let snakeParts := parts.map (fun p => (insertUnd p).map Char.toLower)
  collapseU (List.intercalate ['_'] snakeParts)

/-- Two adjacent underscores occur nowhere in the string. -/
def noDoubleUnd : PyStr → Bool
  | [] => true
  | [_] => true
  | a :: b :: rest => !(a = '_' && b = '_') && noDoubleUnd (b :: rest)

/-! ### Field predicates and column inference -/

/-- The closed set of semantic field names of the column mapping. -/
inductive FieldName where
  | transaction_date | currency | status | amount | description | unknown
deriving DecidableEq

/-- Embedding of the `is_date` helper of `infer_column_mapping`:
the regex for exactly `digits 4, dash, digits 2, dash, digits 2`. -/
def is_date (v : PyStr) : Bool :=
  match pyStrip v with
  | [a, b, c, d, '-', e, f, '-', g, h] =>
    a.isDigit && b.isDigit && c.isDigit && d.isDigit &&
      e.isDigit && f.isDigit && g.isDigit && h.isDigit
  | _ => false

/-- Embedding of the `is_currency` helper: exactly three letters. -/
def is_currency (v : PyStr) : Bool :=
  match pyStrip v with
  | [a, b, c] => a.isAlpha && b.isAlpha && c.isAlpha
  | _ => false

/-- Embedding of the `is_status` helper: case-insensitive membership in the
four status words. -/
def is_status (v : PyStr) : Bool :=
  let t := (pyStrip v).map Char.toLower
  decide (t = "completed".toList) || decide (t = "pending".toList) ||
    decide (t = "failed".toList) || decide (t = "cancelled".toList)

/-- Embedding of the `is_amount` helper: true iff `convert_amount`
succeeds. -/
def is_amount (v : PyStr) : Bool :=
  (convert_amount v).isSome

/-- First pass of `infer_column_mapping`: walk the row left to right,
assigning `transaction_date`, `currency` or `status` to a matching column
whose field is still unclaimed.  The mapping is positional (`none` means the
dict of the source has no entry for that index); `used` is the set of
claimed fields. -/
def pass1 : List PyStr → List FieldName → List (Option FieldName) × List FieldName
  | [], used => ([], used)
  | v :: rest, used =>
    let t := pyStrip v
    if is_date t = true ∧ FieldName.transaction_date ∉ used then
      let r := pass1 rest (used ++ [FieldName.transaction_date])
      (some FieldName.transaction_date :: r.1, r.2)
    else if is_currency t = true ∧ FieldName.currency ∉ used then
      let r := pass1 rest (used ++ [FieldName.currency])
      (some FieldName.currency :: r.1, r.2)
    else if is_status t = true ∧ FieldName.status ∉ used then
      let r := pass1 rest (used ++ [FieldName.status])
      (some FieldName.status :: r.1, r.2)
    else
      let r := pass1 rest used
      (none :: r.1, r.2)

/-- Second pass of `infer_column_mapping`: assign `amount` to the first
still-unassigned column whose value `convert_amount` accepts. -/
def pass2 : List PyStr → List (Option FieldName) → List FieldName → List (Option FieldName) × List FieldName
  | v :: rest, none :: ms, used =>
    if is_amount v = true ∧ FieldName.amount ∉ used then
      let r := pass2 rest ms (used ++ [FieldName.amount])
      (some FieldName.amount :: r.1, r.2)
    else
      let r := pass2 rest ms used
      (none :: r.1, r.2)
  | _ :: rest, some f :: ms, used =>
    let r := pass2 rest ms used
    (some f :: r.1, r.2)
  | _, ms, used => (ms, used)

/-- Third pass of `infer_column_mapping`: the first still-unassigned column
becomes `description`, every further one `unknown`. -/
def pass3 : List (Option FieldName) → List FieldName → List (Option FieldName) × List FieldName
  | [], used => ([], used)
  | some f :: ms, used =>
    let r := pass3 ms used
    (some f :: r.1, r.2)
  | none :: ms, used =>
    if FieldName.description ∉ used then
      let r := pass3 ms (used ++ [FieldName.description])
      (some FieldName.description :: r.1, r.2)
    else
      let r := pass3 ms used
      (some FieldName.unknown :: r.1, r.2)

/-- The three passes of `infer_column_mapping` chained, returning the final
positional mapping and the set of used fields. -/
def inferPasses (row : List PyStr) : List (Option FieldName) × List FieldName :=
  let r1 := pass1 row []
  let r2 := pass2 row r1.1 r1.2
  pass3 r2.1 r2.2

/-- The required field set of `infer_column_mapping`. -/
def requiredFields : List FieldName :=
  [FieldName.transaction_date, FieldName.description, FieldName.amount, FieldName.currency, FieldName.status]

/-- The required fields not covered after the three passes (the set whose
names the `ValueError` of the source reports). -/
def missingFields (row : List PyStr) : List FieldName :=
  requiredFields.filter (fun f => decide (f ∉ (inferPasses row).2))

/-- Embedding of `infer_column_mapping` from src/main.py; the error value
carries the missing fields named by the raised `ValueError`. -/
def infer_column_mapping (row : List PyStr) : Except (List FieldName) (List (Option FieldName)) :=
  if missingFields row = [] then Except.ok (inferPasses row).1
  else Except.error (missingFields row)

/-- Number of positions of the mapping assigned to the field `f`. -/
def countF : List (Option FieldName) → FieldName → Nat
  | [], _ => 0
  | some g :: ms, f => (if g = f then 1 else 0) + countF ms f
  | none :: ms, f => countF ms f

/-- Index of the first element satisfying `p`. -/
def firstIdxWhere (p : PyStr → Bool) : List PyStr → Option Nat
  | [] => none
  | v :: rest =>
    if p v then some 0 else (firstIdxWhere p rest).map (fun n => n + 1)

deriving instance DecidableEq for Except

/-! ### Dates and row normalization -/

/-- Embedding of a Python `datetime` value (down to seconds). -/
structure PyDate where
  year : Nat
  month : Nat
  day : Nat
  hour : Nat := 0
  minute : Nat := 0
  second : Nat := 0
deriving DecidableEq

/-- Gregorian leap-year test. -/
def isLeap (y : Nat) : Bool :=
  (y % 4 = 0 && y % 100 ≠ 0) || y % 400 = 0

/-- Days in a month of the Gregorian calendar. -/
def daysInMonth (y m : Nat) : Nat :=
  if m = 2 then (if isLeap y then 29 else 28)
  else if m = 4 ∨ m = 6 ∨ m = 9 ∨ m = 11 then 30
  else 31

/-- Validity of a calendar date the `datetime` constructor accepts. -/
def validYMD (y m d : Nat) : Bool :=
  1 ≤ y && y ≤ 9999 && 1 ≤ m && m ≤ 12 && 1 ≤ d && d ≤ daysInMonth y m

/-- Embedding of `datetime.strptime(value, str_Y_m_d)`: a four-digit
year, a dash, a one-or-two-digit month, a dash, a one-or-two-digit day, and
nothing else, constructing a valid calendar date; modelled from the Python
standard library. -/
def strptimeYMD (s : PyStr) : Option PyDate :=
  match s.splitOn '-' with
  | [ys, ms, ds] =>
    if ys.length = 4 ∧ ys.all Char.isDigit ∧
        (ms.length = 1 ∨ ms.length = 2) ∧ ms.all Char.isDigit ∧
        (ds.length = 1 ∨ ds.length = 2) ∧ ds.all Char.isDigit then
      let y := digitsVal ys
      let m := digitsVal ms
      let d := digitsVal ds
      if validYMD y m d then some ⟨y, m, d, 0, 0, 0⟩ else none
    else none
  | _ => none

/-- Two-digit number at the front of a time component. -/
def twoDigits (s : PyStr) : Option Nat :=
  match s with
  | [a, b] => if a.isDigit && b.isDigit then some (10 * dval a + dval b) else none
  | _ => none

/-- Embedding of `datetime.fromisoformat`: a `YYYY-MM-DD` date with
two-digit month and day, optionally followed by a separator character and a
`HH:MM` or `HH:MM:SS` time; modelled from the Python standard library
(ISO-8601 subset). -/
def fromisoformat (s : PyStr) : Option PyDate :=
  let date := s.take 10
  let restPart := s.drop 10
  match date.splitOn '-' with
  | [ys, ms, ds] =>
    if ys.length = 4 ∧ ys.all Char.isDigit ∧ ms.length = 2 ∧ ms.all Char.isDigit ∧
        ds.length = 2 ∧ ds.all Char.isDigit then
      let y := digitsVal ys
      let m := digitsVal ms
      let d := digitsVal ds
      if validYMD y m d then
        match restPart with
        | [] => some ⟨y, m, d, 0, 0, 0⟩
        | _ :: timePart =>
          match timePart.splitOn ':' with
          | [hs, mins] =>
            match twoDigits hs, twoDigits mins with
            | some hh, some mm =>
              if hh < 24 ∧ mm < 60 then some ⟨y, m, d, hh, mm, 0⟩ else none
            | _, _ => none
          | [hs, mins, ss] =>
            match twoDigits hs, twoDigits mins, twoDigits ss with
            | some hh, some mm, some sec =>
              if hh < 24 ∧ mm < 60 ∧ sec < 60 then some ⟨y, m, d, hh, mm, sec⟩ else none
            | _, _, _ => none
          | _ => none
      else none
    else none
  | _ => none

/-- Typed value of a normalized field. -/
inductive NormValue where
  | date (d : PyDate)
  | dec (x : PyDecimal)
  | str (s : PyStr)
deriving DecidableEq

/-- The fatal per-row errors of `normalize_row` (the exceptions the source
lets propagate). -/
inductive NormError where
  | dateParse (s : PyStr)
  | amountParse (s : PyStr)
deriving DecidableEq

/-- Normalization of a single field of `normalize_row`, applied to the
already-stripped value: strict date parse with ISO fallback for
`transaction_date`, `convert_amount` for `amount`, lowercasing for `status`,
identity otherwise. -/
def normField (k v : PyStr) : Except NormError NormValue :=
  if k = "transaction_date".toList then
    match strptimeYMD v with
    | some d => Except.ok (NormValue.date d)
    | none =>
      match fromisoformat v with
      | some d => Except.ok (NormValue.date d)
      | none => Except.error (NormError.dateParse v)
  else if k = "amount".toList then
    match convert_amount v with
    | some x => Except.ok (NormValue.dec x)
    | none => Except.error (NormError.amountParse v)
  else if k = "status".toList then Except.ok (NormValue.str (v.map Char.toLower))
  else Except.ok (NormValue.str v)

/-- Embedding of `normalize_row` from src/main.py: walk the row dict in
insertion order, strip each value, normalize it by key, and stop at the
first failing field (the exception the source propagates). -/
def normalize_row : List (PyStr × PyStr) → Except NormError (List (PyStr × NormValue))
  | [] => Except.ok []
  | (k, v) :: rest =>
    match normField k (pyStrip v) with
    | Except.error e => Except.error e
    | Except.ok nv => (normalize_row rest).map (fun r => (k, nv) :: r)

/-- Insert a key into a Python dict embedded as an ordered association list:
an existing key keeps its position and takes the new value, a new key is
appended. -/
def dictInsert (d : List (PyStr × PyStr)) (k v : PyStr) : List (PyStr × PyStr) :=
  if d.any (fun p => decide (p.1 = k)) then
    d.map (fun p => if p.1 = k then (k, v) else p)
  else d ++ [(k, v)]

/-- Embedding of Python `dict(zip(keys, vals))`. -/
def pyDictZip (ks vs : List PyStr) : List (PyStr × PyStr) :=
  (List.zip ks vs).foldl (fun d p => dictInsert d p.1 p.2) []

/-- The per-row loop of `process_csv` over the rows after the header/mapping
is fixed: empty rows are skipped silently, rows whose width differs from the
header are skipped and collected as warnings, every other row is zipped with
the field names and normalized; a normalization failure aborts the whole
file.  Returns the normalized rows and the warned-about rows, both in input
order. -/
def processRows (headers : List PyStr) :
    List (List PyStr) → Except NormError (List (List (PyStr × NormValue)) × List (List PyStr))
  | [] => Except.ok ([], [])
  | r :: rest =>
    if r = [] then processRows headers rest
    else if r.length ≠ headers.length then
      (processRows headers rest).map (fun p => (p.1, r :: p.2))
    else
      match normalize_row (pyDictZip headers r) with
      | Except.error e => Except.error e
      | Except.ok n => (processRows headers rest).map (fun p => (n :: p.1, p.2))

/-- A row the loop of `process_csv` normalizes: nonempty and of the header
width. -/
def goodRow (headers : List PyStr) (r : List PyStr) : Bool :=
  decide (r ≠ []) && decide (r.length = headers.length)

/-- A row the loop of `process_csv` skips with a warning: nonempty but of the
wrong width. -/
def warnRow (headers : List PyStr) (r : List PyStr) : Bool :=
  decide (r ≠ []) && decide (r.length ≠ headers.length)

/-- Normalize a list of rows in order, stopping at the first failure
(the reference semantics the loop of `process_csv` is compared with). -/
def normalizeAll (headers : List PyStr) :
    List (List PyStr) → Except NormError (List (List (PyStr × NormValue)))
  | [] => Except.ok []
  | r :: rest =>
    match normalize_row (pyDictZip headers r) with
    | Except.error e => Except.error e
    | Except.ok n => (normalizeAll headers rest).map (fun l => n :: l)

/-! ### Helper lemmas -/

theorem collapseU_cons (b : Char) (l : PyStr) : ∃ t, collapseU (b :: l) = b :: t := by
  induction l generalizing b with
  | nil => exact ⟨[], rfl⟩
  | cons c l ih =>
    by_cases h : b = '_' ∧ c = '_'
    · obtain ⟨t, ht⟩ := ih c
      exact ⟨t, by rw [collapseU, if_pos h, ht, h.1, h.2]⟩
    · exact ⟨collapseU (c :: l), by rw [collapseU, if_neg h]⟩

theorem noDoubleUnd_collapseU (l : PyStr) : noDoubleUnd (collapseU l) = true := by
  induction l with
  | nil => rfl
  | cons a l ih =>
    cases l with
    | nil => rfl
    | cons b t =>
      by_cases h : a = '_' ∧ b = '_'
      · rw [collapseU, if_pos h]; exact ih
      · rw [collapseU, if_neg h]
        obtain ⟨t2, ht2⟩ := collapseU_cons b t
        rw [ht2]
        have hnd : noDoubleUnd (b :: t2) = true := ht2 ▸ ih
        simp [noDoubleUnd, hnd]
        exact not_and_or.mp h

theorem pass1_first_date (vals : List PyStr) (used : List FieldName) (k : Nat)
    (hused : FieldName.transaction_date ∉ used)
    (hfirst : firstIdxWhere (fun v => is_date (pyStrip v)) vals = some k) :
    (pass1 vals used).1.getD k none = some FieldName.transaction_date := by
  induction vals generalizing used k with
  | nil => simp [firstIdxWhere] at hfirst
  | cons v rest ih =>
    by_cases hd : is_date (pyStrip v) = true
    · have hk : k = 0 := by
        simp [firstIdxWhere, hd] at hfirst
        omega
      subst hk
      simp [pass1, hd, hused]
    · have hstep : (firstIdxWhere (fun v => is_date (pyStrip v)) rest).map (fun n => n + 1)
          = some k := by
        simpa [firstIdxWhere, hd] using hfirst
      obtain ⟨k1, hk1, hke⟩ : ∃ k1,
          firstIdxWhere (fun v => is_date (pyStrip v)) rest = some k1 ∧ k = k1 + 1 := by
        cases hmem : firstIdxWhere (fun v => is_date (pyStrip v)) rest with
        | none => rw [hmem] at hstep; simp at hstep
        | some k1 =>
          rw [hmem] at hstep
          simp at hstep
          exact ⟨k1, rfl, hstep.symm⟩
      subst hke
      by_cases hc : is_currency (pyStrip v) = true ∧ FieldName.currency ∉ used
      · have : FieldName.transaction_date ∉ used ++ [FieldName.currency] := by
          simp [hused]
        simpa [pass1, hd, hc] using ih (used ++ [FieldName.currency]) k1 this hk1
      · by_cases hs : is_status (pyStrip v) = true ∧ FieldName.status ∉ used
        · have : FieldName.transaction_date ∉ used ++ [FieldName.status] := by
            simp [hused]
          simpa [pass1, hd, hc, hs] using ih (used ++ [FieldName.status]) k1 this hk1
        · simpa [pass1, hd, hc, hs] using ih used k1 hused hk1

/-- C2: the claim as stated is false on the code: the interior-uppercase rule
also fires inside the acronym of the token USD, so the source maps
Amount_USD to amount_u_s_d and not to amount_usd. -/
theorem c2_counterexample :
    snake_case "Amount_USD".toList = "amount_u_s_d".toList ∧
    "amount_u_s_d".toList ≠ "amount_usd".toList := by
  constructor
  · decide
  · decide

/-- C2 (amended): snake_case splits on underscores, inserts a separator
before each interior uppercase letter, lowercases, and collapses repeated
separators, so TransactionDate maps to transaction_date, Amount_USD maps to
amount_u_s_d, and no output ever contains a double separator. -/
theorem c2_snake_case_amended :
    snake_case "TransactionDate".toList = "transaction_date".toList ∧
    snake_case "Amount_USD".toList = "amount_u_s_d".toList ∧
    ∀ s : PyStr, noDoubleUnd (snake_case s) = true := by
  refine ⟨by decide, by decide, fun s => ?_⟩
  unfold snake_case
  exact noDoubleUnd_collapseU _

/-- C10: the exact-decimal parser below convert_amount also accepts the
special values NaN and Infinity and exponent notation such as 1e3, so
is_amount holds of them and the classifier assigns such a column as amount. -/
theorem c10_special_values :
    convert_amount "NaN".toList = some PyDecimal.nan ∧
    convert_amount "Infinity".toList = some (PyDecimal.infinity false) ∧
    convert_amount "1e3".toList = some (PyDecimal.finite false 1 3) ∧
    (convert_amount "1e3".toList).bind PyDecimal.valQ = some (1000 : ℚ) ∧
    is_amount "NaN".toList = true ∧
    is_amount "Infinity".toList = true ∧
    is_amount "1e3".toList = true ∧
    infer_column_mapping ["2023-01-05".toList, "USD".toList, "completed".toList,
        "Coffee shop".toList, "NaN".toList] =
      Except.ok [some FieldName.transaction_date, some FieldName.currency,
        some FieldName.status, some FieldName.description, some FieldName.amount] := by
  refine ⟨by decide, by decide, by decide, ?_, by decide, by decide, by decide, by decide⟩
  have h : convert_amount "1e3".toList = some (PyDecimal.finite false 1 3) := by decide
  rw [h]
  show PyDecimal.valQ (PyDecimal.finite false 1 3) = some 1000
  simp [PyDecimal.valQ]
  norm_num

/-- C3: the classifier maps the sample row as the spec requires (index 0 the
date, 1 the currency, 2 the status, 4 the amount, 3 the description), and in
the first pass the leftmost column matching is_date always receives
transaction_date. -/
theorem c3_column_classifier :
    infer_column_mapping ["2023-01-05".toList, "USD".toList, "completed".toList,
        "Coffee shop".toList, "$12.50".toList] =
      Except.ok [some FieldName.transaction_date, some FieldName.currency,
        some FieldName.status, some FieldName.description, some FieldName.amount] ∧
    ∀ vals k, firstIdxWhere (fun v => is_date (pyStrip v)) vals = some k →
      (pass1 vals []).1.getD k none = some FieldName.transaction_date := by
  refine ⟨by decide, fun vals k h => ?_⟩
  exact pass1_first_date vals [] k (by simp) h

/-- C3 witness: the leftmost-date rule applied to the sample row. -/
theorem c3_witness :
    (pass1 ["2023-01-05".toList, "USD".toList, "completed".toList,
        "Coffee shop".toList, "$12.50".toList] []).1.getD 0 none =
      some FieldName.transaction_date :=
  c3_column_classifier.2 _ 0 (by decide)

/-- C4: the classifier fails exactly when the required field set is not fully
covered after the three passes, the error names exactly the missing required
fields, and it fails on a row that is complete except that no column
satisfies is_amount. -/
theorem c4_inference_failure_iff :
    (∀ row, (infer_column_mapping row).isOk = false ↔ missingFields row ≠ []) ∧
    (∀ row e, infer_column_mapping row = Except.error e →
      ∀ f, f ∈ e ↔ f ∈ requiredFields ∧ f ∉ (inferPasses row).2) ∧
    infer_column_mapping ["2023-01-05".toList, "USD".toList, "completed".toList,
        "Coffee shop".toList, "abc".toList] = Except.error [FieldName.amount] := by
  refine ⟨fun row => ?_, fun row e he f => ?_, by decide⟩
  · by_cases h : missingFields row = [] <;>
      simp [infer_column_mapping, h, Except.isOk, Except.toBool]
  · have he2 : e = missingFields row := by
      by_cases h : missingFields row = []
      · simp [infer_column_mapping, h] at he
      · simp [infer_column_mapping, h] at he
        exact he.symm
    subst he2
    simp [missingFields, List.mem_filter]

/-- C4 witness: on the amount-free sample row the error names exactly the
field amount. -/
theorem c4_witness :
    ∀ f, f ∈ [FieldName.amount] ↔
      f ∈ requiredFields ∧
        f ∉ (inferPasses ["2023-01-05".toList, "USD".toList, "completed".toList,
          "Coffee shop".toList, "abc".toList]).2 :=
  c4_inference_failure_iff.2.1 _ _ (by decide)

theorem pass1_length (vals : List PyStr) (used : List FieldName) :
    (pass1 vals used).1.length = vals.length := by
  induction vals generalizing used with
  | nil => rfl
  | cons v rest ih =>
    simp only [pass1]
    split_ifs <;> simp [ih]

theorem pass1_count_of_mem (vals : List PyStr) (used : List FieldName) (f : FieldName)
    (h : f ∈ used) : countF (pass1 vals used).1 f = 0 := by
  induction vals generalizing used with
  | nil => rfl
  | cons v rest ih =>
    simp only [pass1]
    split_ifs with h1 h2 h3
    · have hne : FieldName.transaction_date ≠ f := fun he => h1.2 (he ▸ h)
      simp [countF, hne, ih (used ++ [FieldName.transaction_date]) (by simp [h])]
    · have hne : FieldName.currency ≠ f := fun he => h2.2 (he ▸ h)
      simp [countF, hne, ih (used ++ [FieldName.currency]) (by simp [h])]
    · have hne : FieldName.status ≠ f := fun he => h3.2 (he ▸ h)
      simp [countF, hne, ih (used ++ [FieldName.status]) (by simp [h])]
    · simp [countF, ih used h]

theorem pass1_count_le_one (vals : List PyStr) (used : List FieldName) (f : FieldName) :
    countF (pass1 vals used).1 f ≤ 1 := by
  induction vals generalizing used with
  | nil => simp [pass1, countF]
  | cons v rest ih =>
    simp only [pass1]
    split_ifs with h1 h2 h3
    · by_cases he : FieldName.transaction_date = f
      · subst he
        have h0 := pass1_count_of_mem rest (used ++ [FieldName.transaction_date]) FieldName.transaction_date (by simp)
        simp [countF, h0]
      · simp [countF, he, ih (used ++ [FieldName.transaction_date])]
    · by_cases he : FieldName.currency = f
      · subst he
        have h0 := pass1_count_of_mem rest (used ++ [FieldName.currency]) FieldName.currency (by simp)
        simp [countF, h0]
      · simp [countF, he, ih (used ++ [FieldName.currency])]
    · by_cases he : FieldName.status = f
      · subst he
        have h0 := pass1_count_of_mem rest (used ++ [FieldName.status]) FieldName.status (by simp)
        simp [countF, h0]
      · simp [countF, he, ih (used ++ [FieldName.status])]
    · simp [countF, ih used]

theorem pass1_mem_used_iff (vals : List PyStr) (used : List FieldName) (f : FieldName) :
    f ∈ (pass1 vals used).2 ↔ f ∈ used ∨ countF (pass1 vals used).1 f ≠ 0 := by
  induction vals generalizing used with
  | nil => simp [pass1, countF]
  | cons v rest ih =>
    simp only [pass1]
    split_ifs with h1 h2 h3
    · by_cases he : FieldName.transaction_date = f
      · subst he
        simp [countF, ih (used ++ [FieldName.transaction_date])]
      · simp only [countF, if_neg he, Nat.zero_add]
        rw [ih (used ++ [FieldName.transaction_date])]
        simp [Ne.symm he]
    · by_cases he : FieldName.currency = f
      · subst he
        simp [countF, ih (used ++ [FieldName.currency])]
      · simp only [countF, if_neg he, Nat.zero_add]
        rw [ih (used ++ [FieldName.currency])]
        simp [Ne.symm he]
    · by_cases he : FieldName.status = f
      · subst he
        simp [countF, ih (used ++ [FieldName.status])]
      · simp only [countF, if_neg he, Nat.zero_add]
        rw [ih (used ++ [FieldName.status])]
        simp [Ne.symm he]
    · simp [countF, ih used]

theorem pass1_count_other (vals : List PyStr) (used : List FieldName) (f : FieldName)
    (h1 : f ≠ FieldName.transaction_date) (h2 : f ≠ FieldName.currency)
    (h3 : f ≠ FieldName.status) : countF (pass1 vals used).1 f = 0 := by
  induction vals generalizing used with
  | nil => rfl
  | cons v rest ih =>
    simp only [pass1]
    split_ifs <;> simp [countF, Ne.symm h1, Ne.symm h2, Ne.symm h3, ih]

theorem pass2_nil_vals (ms : List (Option FieldName)) (used : List FieldName) :
    pass2 [] ms used = (ms, used) := rfl

theorem pass2_nil_ms (v : PyStr) (rest : List PyStr) (used : List FieldName) :
    pass2 (v :: rest) [] used = ([], used) := rfl

theorem pass2_length (vals : List PyStr) (ms : List (Option FieldName))
    (used : List FieldName) : (pass2 vals ms used).1.length = ms.length := by
  induction vals generalizing ms used with
  | nil => rfl
  | cons v rest ih =>
    cases ms with
    | nil => rfl
    | cons o ms =>
      cases o with
      | none =>
        simp only [pass2]
        split_ifs <;> simp [ih]
      | some f => simp [pass2, ih]

theorem pass2_id_of_amount_used (vals : List PyStr) (ms : List (Option FieldName))
    (used : List FieldName) (h : FieldName.amount ∈ used) :
    pass2 vals ms used = (ms, used) := by
  induction vals generalizing ms used with
  | nil => rfl
  | cons v rest ih =>
    cases ms with
    | nil => rfl
    | cons o ms =>
      cases o with
      | none =>
        have hc : ¬(is_amount v = true ∧ FieldName.amount ∉ used) := fun hx => hx.2 h
        simp [pass2, hc, ih ms used h]
      | some f => simp [pass2, ih ms used h]

theorem pass2_count_other (vals : List PyStr) (ms : List (Option FieldName))
    (used : List FieldName) (f : FieldName) (hne : f ≠ FieldName.amount) :
    countF (pass2 vals ms used).1 f = countF ms f := by
  induction vals generalizing ms used with
  | nil => rfl
  | cons v rest ih =>
    cases ms with
    | nil => rfl
    | cons o ms =>
      cases o with
      | none =>
        simp only [pass2]
        split_ifs with h1
        · have hid := pass2_id_of_amount_used rest ms (used ++ [FieldName.amount]) (by simp)
          simp [countF, hid, Ne.symm hne]
        · simp [countF, ih ms used]
      | some g => simp [countF, pass2, ih ms used]

theorem pass2_used_other (vals : List PyStr) (ms : List (Option FieldName))
    (used : List FieldName) (f : FieldName) (hne : f ≠ FieldName.amount) :
    (f ∈ (pass2 vals ms used).2 ↔ f ∈ used) := by
  induction vals generalizing ms used with
  | nil => simp [pass2]
  | cons v rest ih =>
    cases ms with
    | nil => simp [pass2]
    | cons o ms =>
      cases o with
      | none =>
        simp only [pass2]
        split_ifs with h1
        · have hid := pass2_id_of_amount_used rest ms (used ++ [FieldName.amount]) (by simp)
          simp [hid, hne]
        · simp [ih ms used]
      | some g => simp [pass2, ih ms used]

theorem pass2_amount (vals : List PyStr) (ms : List (Option FieldName))
    (used : List FieldName) (hu : FieldName.amount ∉ used)
    (hm : countF ms FieldName.amount = 0) :
    countF (pass2 vals ms used).1 FieldName.amount ≤ 1 ∧
      (FieldName.amount ∈ (pass2 vals ms used).2 ↔
        countF (pass2 vals ms used).1 FieldName.amount = 1) := by
  induction vals generalizing ms used with
  | nil => simp [pass2, hm, hu]
  | cons v rest ih =>
    cases ms with
    | nil => simp [pass2_nil_ms, countF, hu]
    | cons o ms =>
      cases o with
      | none =>
        have hm2 : countF ms FieldName.amount = 0 := by simpa [countF] using hm
        simp only [pass2]
        split_ifs with h1
        · have hid := pass2_id_of_amount_used rest ms (used ++ [FieldName.amount]) (by simp)
          simp [countF, hid, hm2]
        · simpa [countF] using ih ms used hu hm2
      | some g =>
        have hg : g ≠ FieldName.amount := by
          intro he
          rw [he] at hm
          simp [countF] at hm
        have hm2 : countF ms FieldName.amount = 0 := by simpa [countF, hg] using hm
        simpa [countF, pass2, hg] using ih ms used hu hm2

theorem pass3_length (ms : List (Option FieldName)) (used : List FieldName) :
    (pass3 ms used).1.length = ms.length := by
  induction ms generalizing used with
  | nil => rfl
  | cons o ms ih =>
    cases o with
    | none =>
      simp only [pass3]
      split_ifs <;> simp [ih]
    | some f => simp [pass3, ih]

theorem pass3_isSome (ms : List (Option FieldName)) (used : List FieldName) :
    ∀ e ∈ (pass3 ms used).1, e.isSome = true := by
  induction ms generalizing used with
  | nil => simp [pass3]
  | cons o ms ih =>
    cases o with
    | none =>
      simp only [pass3]
      split_ifs with h
      · intro e he
        rcases List.mem_cons.mp he with he | he
        · simp [he]
        · exact ih used e he
      · intro e he
        rcases List.mem_cons.mp he with he | he
        · simp [he]
        · exact ih (used ++ [FieldName.description]) e he
    | some f =>
      intro e he
      rcases List.mem_cons.mp (by simpa [pass3] using he) with he2 | he2
      · simp [he2]
      · exact ih used e he2

theorem pass3_count_other (ms : List (Option FieldName)) (used : List FieldName)
    (f : FieldName) (h1 : f ≠ FieldName.description) (h2 : f ≠ FieldName.unknown) :
    countF (pass3 ms used).1 f = countF ms f := by
  induction ms generalizing used with
  | nil => rfl
  | cons o ms ih =>
    cases o with
    | none =>
      simp only [pass3]
      split_ifs <;> simp [countF, Ne.symm h1, Ne.symm h2, ih]
    | some g => simp [countF, pass3, ih]

theorem pass3_used_other (ms : List (Option FieldName)) (used : List FieldName)
    (f : FieldName) (hf : f ≠ FieldName.description) :
    (f ∈ (pass3 ms used).2 ↔ f ∈ used) := by
  induction ms generalizing used with
  | nil => simp [pass3]
  | cons o ms ih =>
    cases o with
    | none =>
      simp only [pass3]
      split_ifs with h
      · exact ih used
      · rw [ih (used ++ [FieldName.description])]
        simp [hf]
    | some g => simp [pass3, ih]

theorem pass3_of_desc_used (ms : List (Option FieldName)) (used : List FieldName)
    (h : FieldName.description ∈ used) :
    countF (pass3 ms used).1 FieldName.description = countF ms FieldName.description ∧
      (pass3 ms used).2 = used := by
  induction ms generalizing used with
  | nil => exact ⟨rfl, rfl⟩
  | cons o ms ih =>
    cases o with
    | none =>
      have hc : ¬ FieldName.description ∉ used := fun hx => hx h
      simp only [pass3]
      rw [if_neg hc]
      have := ih used h
      simp [countF, this.1, this.2]
    | some g =>
      have := ih used h
      simp [countF, pass3, this.1, this.2]

theorem pass3_desc (ms : List (Option FieldName)) (used : List FieldName)
    (hu : FieldName.description ∉ used) (hm : countF ms FieldName.description = 0) :
    countF (pass3 ms used).1 FieldName.description ≤ 1 ∧
      (FieldName.description ∈ (pass3 ms used).2 ↔
        countF (pass3 ms used).1 FieldName.description = 1) := by
  induction ms generalizing used with
  | nil => simp [pass3, countF, hu]
  | cons o ms ih =>
    cases o with
    | none =>
      have hm2 : countF ms FieldName.description = 0 := by simpa [countF] using hm
      simp only [pass3]
      rw [if_pos hu]
      have hid := pass3_of_desc_used ms (used ++ [FieldName.description]) (by simp)
      simp [countF, hid.1, hid.2, hm2]
    | some g =>
      have hg : g ≠ FieldName.description := by
        intro he
        rw [he] at hm
        simp [countF] at hm
      have hm2 : countF ms FieldName.description = 0 := by simpa [countF, hg] using hm
      simpa [countF, pass3, hg] using ih used hu hm2

/-- C5: on every row the classifier accepts, the returned mapping is dense
(one assignment per column), assigns exactly one column to each of
transaction_date, amount, currency and status, and at most one column to
description; all remaining columns carry unknown. -/
theorem c5_mapping_invariant (row : List PyStr) (m : List (Option FieldName))
    (h : infer_column_mapping row = Except.ok m) :
    m.length = row.length ∧
    (∀ e ∈ m, e.isSome = true) ∧
    countF m FieldName.transaction_date = 1 ∧
    countF m FieldName.amount = 1 ∧
    countF m FieldName.currency = 1 ∧
    countF m FieldName.status = 1 ∧
    countF m FieldName.description ≤ 1 := by
  have hmiss : missingFields row = [] := by
    by_cases hc : missingFields row = []
    · exact hc
    · simp [infer_column_mapping, hc] at h
  have hm : m = (inferPasses row).1 := by
    simp [infer_column_mapping, hmiss] at h
    exact h.symm
  have hcov : ∀ f ∈ requiredFields, f ∈ (inferPasses row).2 := by
    intro f hf
    have h2 := List.filter_eq_nil_iff.mp hmiss f hf
    simpa using h2
  subst hm
  have hexp : inferPasses row =
      pass3 (pass2 row (pass1 row []).1 (pass1 row []).2).1
        (pass2 row (pass1 row []).1 (pass1 row []).2).2 := rfl
  rw [hexp] at hcov ⊢
  have singleton : ∀ f : FieldName, f ≠ FieldName.description → f ≠ FieldName.unknown →
      f ≠ FieldName.amount →
      f ∈ (pass3 (pass2 row (pass1 row []).1 (pass1 row []).2).1
        (pass2 row (pass1 row []).1 (pass1 row []).2).2).2 →
      countF (pass3 (pass2 row (pass1 row []).1 (pass1 row []).2).1
        (pass2 row (pass1 row []).1 (pass1 row []).2).2).1 f = 1 := by
    intro f hd hk ha hmem
    have h1 : f ∈ (pass2 row (pass1 row []).1 (pass1 row []).2).2 :=
      (pass3_used_other _ _ f hd).mp hmem
    have h2 : f ∈ (pass1 row []).2 :=
      (pass2_used_other _ _ _ f ha).mp h1
    have h3 : countF (pass1 row []).1 f ≠ 0 := by
      rcases (pass1_mem_used_iff row [] f).mp h2 with hx | hx
      · simp at hx
      · exact hx
    have h4 : countF (pass1 row []).1 f = 1 :=
      Nat.le_antisymm (pass1_count_le_one row [] f) (Nat.one_le_iff_ne_zero.mpr h3)
    rw [pass3_count_other _ _ f hd hk, pass2_count_other _ _ _ f ha, h4]
  have ham1 : countF (pass1 row []).1 FieldName.amount = 0 :=
    pass1_count_other row [] FieldName.amount (by decide) (by decide) (by decide)
  have hamu1 : FieldName.amount ∉ (pass1 row []).2 := by
    intro hx
    rcases (pass1_mem_used_iff row [] FieldName.amount).mp hx with hy | hy
    · simp at hy
    · exact hy ham1
  have hpa := pass2_amount row (pass1 row []).1 (pass1 row []).2 hamu1 ham1
  have hd1 : countF (pass1 row []).1 FieldName.description = 0 :=
    pass1_count_other row [] FieldName.description (by decide) (by decide) (by decide)
  have hdu1 : FieldName.description ∉ (pass1 row []).2 := by
    intro hx
    rcases (pass1_mem_used_iff row [] FieldName.description).mp hx with hy | hy
    · simp at hy
    · exact hy hd1
  have hd2 : countF (pass2 row (pass1 row []).1 (pass1 row []).2).1
      FieldName.description = 0 := by
    rw [pass2_count_other _ _ _ FieldName.description (by decide)]
    exact hd1
  have hdu2 : FieldName.description ∉ (pass2 row (pass1 row []).1 (pass1 row []).2).2 :=
    fun hx => hdu1 ((pass2_used_other _ _ _ FieldName.description (by decide)).mp hx)
  refine ⟨?_, pass3_isSome _ _, ?_, ?_, ?_, ?_, ?_⟩
  · rw [pass3_length, pass2_length, pass1_length]
  · exact singleton FieldName.transaction_date (by decide) (by decide) (by decide)
      (hcov _ (by simp [requiredFields]))
  · have hmem : FieldName.amount ∈ (pass3 (pass2 row (pass1 row []).1 (pass1 row []).2).1
        (pass2 row (pass1 row []).1 (pass1 row []).2).2).2 :=
      hcov _ (by simp [requiredFields])
    have h1 : FieldName.amount ∈ (pass2 row (pass1 row []).1 (pass1 row []).2).2 :=
      (pass3_used_other _ _ FieldName.amount (by decide)).mp hmem
    have h2 := hpa.2.mp h1
    rw [pass3_count_other _ _ FieldName.amount (by decide) (by decide), h2]
  · exact singleton FieldName.currency (by decide) (by decide) (by decide)
      (hcov _ (by simp [requiredFields]))
  · exact singleton FieldName.status (by decide) (by decide) (by decide)
      (hcov _ (by simp [requiredFields]))
  · exact (pass3_desc _ _ hdu2 hd2).1

/-- C5 witness: the invariant instantiated on the sample row. -/
theorem c5_witness :
    ([some FieldName.transaction_date, some FieldName.currency, some FieldName.status,
        some FieldName.description, some FieldName.amount] :
          List (Option FieldName)).length =
      (["2023-01-05".toList, "USD".toList, "completed".toList,
        "Coffee shop".toList, "$12.50".toList] : List PyStr).length ∧
    (∀ e ∈ ([some FieldName.transaction_date, some FieldName.currency,
        some FieldName.status, some FieldName.description, some FieldName.amount] :
          List (Option FieldName)), e.isSome = true) ∧
    countF [some FieldName.transaction_date, some FieldName.currency,
      some FieldName.status, some FieldName.description, some FieldName.amount]
      FieldName.transaction_date = 1 ∧
    countF [some FieldName.transaction_date, some FieldName.currency,
      some FieldName.status, some FieldName.description, some FieldName.amount]
      FieldName.amount = 1 ∧
    countF [some FieldName.transaction_date, some FieldName.currency,
      some FieldName.status, some FieldName.description, some FieldName.amount]
      FieldName.currency = 1 ∧
    countF [some FieldName.transaction_date, some FieldName.currency,
      some FieldName.status, some FieldName.description, some FieldName.amount]
      FieldName.status = 1 ∧
    countF [some FieldName.transaction_date, some FieldName.currency,
      some FieldName.status, some FieldName.description, some FieldName.amount]
      FieldName.description ≤ 1 :=
  c5_mapping_invariant
    ["2023-01-05".toList, "USD".toList, "completed".toList,
      "Coffee shop".toList, "$12.50".toList]
    [some FieldName.transaction_date, some FieldName.currency, some FieldName.status,
      some FieldName.description, some FieldName.amount]
    (by decide)

theorem processRows_eq (headers : List PyStr) (rows : List (List PyStr)) :
    processRows headers rows =
      (normalizeAll headers (rows.filter (goodRow headers))).map
        (fun ns => (ns, rows.filter (warnRow headers))) := by
  induction rows with
  | nil => rfl
  | cons r rest ih =>
    by_cases h0 : r = []
    · subst h0
      simp [processRows, List.filter_cons, goodRow, warnRow, ih]
    · by_cases h1 : r.length = headers.length
      · have hg : goodRow headers r = true := by simp [goodRow, h0, h1]
        have hw : warnRow headers r = false := by simp [warnRow, h1]
        simp only [processRows, if_neg h0, List.filter_cons, hg, hw, if_true,
          Bool.false_eq_true, if_false]
        rw [if_neg (by simp [h1])]
        simp only [normalizeAll]
        cases hn : normalize_row (pyDictZip headers r) with
        | error e => simp [hn, Except.map]
        | ok n =>
          simp only [hn, ih]
          cases hna : normalizeAll headers (rest.filter (goodRow headers)) with
          | error e => simp [hna, Except.map]
          | ok ns => simp [hna, Except.map]
      · have hg : goodRow headers r = false := by simp [goodRow, h1]
        have hw : warnRow headers r = true := by simp [warnRow, h0, h1]
        simp only [processRows, if_neg h0, List.filter_cons, hg, hw, if_true,
          Bool.false_eq_true, if_false]
        rw [if_pos h1, ih]
        cases hna : normalizeAll headers (rest.filter (goodRow headers)) with
        | error e => simp [hna, Except.map]
        | ok ns => simp [hna, Except.map]

/-- C6: after the header is fixed the loop of process_csv normalizes exactly
the nonempty rows of matching width, in order, skipping empty rows silently
and collecting width-mismatched rows as warnings; hence a file with one
wrong-width row yields the same normalized output as the file without that
row, and that row is reported as a warning. -/
theorem c6_row_skipping :
    (∀ headers rows, processRows headers rows =
      (normalizeAll headers (rows.filter (goodRow headers))).map
        (fun ns => (ns, rows.filter (warnRow headers)))) ∧
    ∀ headers pre post bad, bad ≠ [] → bad.length ≠ headers.length →
      ((processRows headers (pre ++ bad :: post)).map Prod.fst =
          (processRows headers (pre ++ post)).map Prod.fst ∧
        ∀ ns ws, processRows headers (pre ++ bad :: post) = Except.ok (ns, ws) →
          bad ∈ ws) := by
  refine ⟨processRows_eq, fun headers pre post bad hne hlen => ?_⟩
  have hgb : goodRow headers bad = false := by simp [goodRow, hlen]
  have hwb : warnRow headers bad = true := by simp [warnRow, hne, hlen]
  have hG : (pre ++ bad :: post).filter (goodRow headers) =
      (pre ++ post).filter (goodRow headers) := by
    simp [List.filter_append, List.filter_cons, hgb]
  constructor
  · rw [processRows_eq, processRows_eq, hG]
    cases normalizeAll headers ((pre ++ post).filter (goodRow headers)) <;>
      simp [Except.map]
  · intro ns ws h
    rw [processRows_eq] at h
    cases hna : normalizeAll headers ((pre ++ bad :: post).filter (goodRow headers)) with
    | error e =>
      rw [hna] at h
      simp [Except.map] at h
    | ok ns2 =>
      rw [hna] at h
      simp only [Except.map] at h
      have hpair := Except.ok.inj h
      have hws : ws = (pre ++ bad :: post).filter (warnRow headers) :=
        (congrArg Prod.snd hpair).symm
      rw [hws]
      simp [List.filter_append, List.filter_cons, hwb]

/-- C6 witness: a concrete two-column file whose middle row is too short. -/
theorem c6_witness :
    ((processRows [['a'], ['b']] ([[['x'], ['y']]] ++ [['z']] :: [[['p'], ['q']]])).map
        Prod.fst =
      (processRows [['a'], ['b']] ([[['x'], ['y']]] ++ [[['p'], ['q']]])).map Prod.fst ∧
      ∀ ns ws, processRows [['a'], ['b']] ([[['x'], ['y']]] ++ [['z']] :: [[['p'], ['q']]]) =
        Except.ok (ns, ws) → [['z']] ∈ ws) :=
  c6_row_skipping.2 [['a'], ['b']] [[['x'], ['y']]] [[['p'], ['q']]] [['z']]
    (by decide) (by decide)

/-- C8: normalize_row handles transaction_date by trimming, then the strict
year-month-day parse, then the ISO-8601 fallback, and when both parsers fail
the date error escapes normalize_row (in any row dict containing the field)
instead of being swallowed. -/
theorem c8_date_fallback :
    (∀ v : PyStr, normalize_row [("transaction_date".toList, v)] =
      (match strptimeYMD (pyStrip v) with
       | some d => Except.ok [("transaction_date".toList, NormValue.date d)]
       | none =>
         match fromisoformat (pyStrip v) with
         | some d => Except.ok [("transaction_date".toList, NormValue.date d)]
         | none => Except.error (NormError.dateParse (pyStrip v)))) ∧
    ∀ v pre suf, strptimeYMD (pyStrip v) = none → fromisoformat (pyStrip v) = none →
      ∃ e, normalize_row (pre ++ ("transaction_date".toList, v) :: suf) =
        Except.error e := by
  constructor
  · intro v
    simp only [normalize_row, normField, eq_self_iff_true, if_true]
    cases strptimeYMD (pyStrip v) with
    | some d => simp [normalize_row, Except.map]
    | none =>
      cases fromisoformat (pyStrip v) with
      | some d => simp [normalize_row, Except.map]
      | none => simp
  · intro v pre suf h1 h2
    induction pre with
    | nil =>
      refine ⟨NormError.dateParse (pyStrip v), ?_⟩
      simp [normalize_row, normField, h1, h2]
    | cons p pre ih =>
      obtain ⟨k0, v0⟩ := p
      obtain ⟨e, he⟩ := ih
      cases hnf : normField k0 (pyStrip v0) with
      | error e0 =>
        refine ⟨e0, ?_⟩
        simp [normalize_row, hnf]
      | ok nv =>
        refine ⟨e, ?_⟩
        simp only [normalize_row, hnf, List.append_eq]
        rw [he]
        rfl

/-- C8 witness: a value neither parser accepts makes normalize_row fail. -/
theorem c8_witness :
    ∃ e, normalize_row [("transaction_date".toList, "garbage".toList)] =
      Except.error e :=
  c8_date_fallback.2 "garbage".toList [] [] (by decide) (by decide)

theorem rfind_cons (c x : Char) (t : PyStr) :
    rfind c (x :: t) = if rfind c t ≥ 0 then rfind c t + 1 else if x = c then 0 else -1 :=
  rfl

theorem rfind_lt_length (c : Char) (l : PyStr) : rfind c l < (l.length : Int) := by
  induction l with
  | nil => simp [rfind]
  | cons x l ih =>
    rw [rfind_cons, List.length_cons]
    split_ifs <;> omega

theorem rfind_nonneg_iff (c : Char) (l : PyStr) : 0 ≤ rfind c l ↔ c ∈ l := by
  induction l with
  | nil => simp [rfind]
  | cons x l ih =>
    rw [rfind_cons, List.mem_cons]
    split_ifs with h1 h2
    · have := ih.mp h1
      constructor
      · intro _; exact Or.inr this
      · intro _; omega
    · subst h2
      simp
    · constructor
      · intro hx; omega
      · rintro (hx | hx)
        · exact absurd hx.symm h2
        · exact absurd (ih.mpr hx) h1

theorem rfind_append_single (c a : Char) (l : PyStr) :
    rfind c (l ++ [a]) = if a = c then (l.length : Int) else rfind c l := by
  induction l with
  | nil => by_cases h : a = c <;> simp [rfind, h]
  | cons x l ih =>
    rw [List.cons_append, rfind_cons, ih]
    by_cases h : a = c
    · rw [if_pos h, if_pos h, if_pos (by positivity : (l.length : Int) ≥ 0)]
      simp
    · rw [if_neg h, if_neg h, rfind_cons]

theorem lastSep_append_single (a : Char) (l : PyStr) :
    lastSep (l ++ [a]) = if a = ',' ∨ a = '.' then some a else lastSep l := by
  unfold lastSep
  rw [List.reverse_append]
  simp only [List.reverse_singleton, List.singleton_append, List.find?]
  by_cases h : a = ',' ∨ a = '.'
  · have hb : (a = ',' || a = '.') = true := by
      rcases h with h | h <;> simp [h]
    rw [if_pos h]
    simp [hb]
  · have hb : (a = ',' || a = '.') = false := by
      push_neg at h
      simp [h.1, h.2]
    rw [if_neg h]
    simp [hb]

theorem rfind_comma_gt_iff (t : PyStr) (hc : ',' ∈ t) (hd : '.' ∈ t) :
    rfind ',' t > rfind '.' t ↔ lastSep t = some ',' := by
  induction t using List.reverseRecOn with
  | nil => simp at hc
  | append_singleton l a ih =>
    rw [lastSep_append_single, rfind_append_single, rfind_append_single]
    by_cases h1 : a = ','
    · subst h1
      have hlt := rfind_lt_length '.' l
      rw [if_pos rfl, if_neg (by decide : ¬(',' : Char) = '.'), if_pos (Or.inl rfl)]
      constructor
      · intro _; rfl
      · intro _; exact hlt
    · by_cases h2 : a = '.'
      · subst h2
        have hcl : ',' ∈ l := by
          rcases List.mem_append.mp hc with hx | hx
          · exact hx
          · simp at hx
        have hlt := rfind_lt_length ',' l
        rw [if_neg (by decide : ¬('.' : Char) = ','), if_pos rfl, if_pos (Or.inr rfl)]
        constructor
        · intro hx
          exfalso
          omega
        · intro hx
          exact absurd (Option.some.inj hx) (by decide)
      · have hcl : ',' ∈ l := by
          rcases List.mem_append.mp hc with hx | hx
          · exact hx
          · simp at hx
            exact absurd hx.symm h1
        have hdl : '.' ∈ l := by
          rcases List.mem_append.mp hd with hx | hx
          · exact hx
          · simp at hx
            exact absurd hx.symm h2
        rw [if_neg h1, if_neg h2, if_neg (by simp [h1, h2] : ¬(a = ',' ∨ a = '.'))]
        exact ih hcl hdl

theorem disambiguateSeparators_eq_spec (t : PyStr) :
    disambiguateSeparators t = specDisambiguate t := by
  unfold disambiguateSeparators specDisambiguate
  by_cases hboth : ',' ∈ t ∧ '.' ∈ t
  · rw [if_pos hboth, if_pos hboth]
    have hiff := rfind_comma_gt_iff t hboth.1 hboth.2
    by_cases hgt : rfind ',' t > rfind '.' t
    · rw [if_pos hgt, if_pos (hiff.mp hgt)]
    · rw [if_neg hgt, if_neg (fun h => hgt (hiff.mpr h))]
  · rw [if_neg hboth, if_neg hboth]

/-- C1: convert_amount implements the disambiguation algorithm of §4.1 of
the spec exactly (rightmost separator decides when both occur, the
four-character lookback decides a lone comma, a lone dot is kept), and the
spec's sample values all parse to the stated exact decimals while abc
fails. -/
theorem c1_amount_disambiguation :
    (∀ s : PyStr, convert_amount s = specConvertAmount s) ∧
    convert_amount "$1,234.56".toList = some (PyDecimal.finite false 123456 (-2)) ∧
    (convert_amount "$1,234.56".toList).bind PyDecimal.valQ = some ((123456 : ℚ) / 100) ∧
    convert_amount "1.234,56".toList = some (PyDecimal.finite false 123456 (-2)) ∧
    (convert_amount "1.234,56".toList).bind PyDecimal.valQ = some ((123456 : ℚ) / 100) ∧
    (convert_amount "1,23".toList).bind PyDecimal.valQ = some ((123 : ℚ) / 100) ∧
    (convert_amount "1,234".toList).bind PyDecimal.valQ = some (1234 : ℚ) ∧
    (convert_amount "12.5".toList).bind PyDecimal.valQ = some ((125 : ℚ) / 10) ∧
    convert_amount "abc".toList = none := by
  refine ⟨fun s => ?_, by decide, ?_, by decide, ?_, ?_, ?_, ?_, by decide⟩
  · unfold convert_amount specConvertAmount
    rw [disambiguateSeparators_eq_spec]
  · have h : convert_amount "$1,234.56".toList =
        some (PyDecimal.finite false 123456 (-2)) := by decide
    rw [h]
    show PyDecimal.valQ (PyDecimal.finite false 123456 (-2)) = some ((123456 : ℚ) / 100)
    simp [PyDecimal.valQ]
    norm_num
  · have h : convert_amount "1.234,56".toList =
        some (PyDecimal.finite false 123456 (-2)) := by decide
    rw [h]
    show PyDecimal.valQ (PyDecimal.finite false 123456 (-2)) = some ((123456 : ℚ) / 100)
    simp [PyDecimal.valQ]
    norm_num
  · have h : convert_amount "1,23".toList =
        some (PyDecimal.finite false 123 (-2)) := by decide
    rw [h]
    show PyDecimal.valQ (PyDecimal.finite false 123 (-2)) = some ((123 : ℚ) / 100)
    simp [PyDecimal.valQ]
    norm_num
  · have h : convert_amount "1,234".toList =
        some (PyDecimal.finite false 1234 0) := by decide
    rw [h]
    show PyDecimal.valQ (PyDecimal.finite false 1234 0) = some (1234 : ℚ)
    simp [PyDecimal.valQ]
  · have h : convert_amount "12.5".toList =
        some (PyDecimal.finite false 125 (-1)) := by decide
    rw [h]
    show PyDecimal.valQ (PyDecimal.finite false 125 (-1)) = some ((125 : ℚ) / 10)
    simp [PyDecimal.valQ]
    norm_num

theorem dropWhile_append_of_all {p : Char → Bool} (a l : PyStr)
    (ha : ∀ c ∈ a, p c = true) :
    List.dropWhile p (a ++ l) = List.dropWhile p l := by
  induction a with
  | nil => rfl
  | cons c a ih =>
    rw [List.cons_append, List.dropWhile_cons, if_pos (ha c (List.mem_cons_self c a))]
    exact ih (fun x hx => ha x (List.mem_cons_of_mem c hx))

theorem pyStrip_ws_append (a m : PyStr) (ha : ∀ c ∈ a, isPySpace c = true) :
    pyStrip (a ++ m) = pyStrip m := by
  unfold pyStrip
  rw [dropWhile_append_of_all a m ha]

theorem pyStrip_append_ws (m b : PyStr) (hb : ∀ c ∈ b, isPySpace c = true) :
    pyStrip (m ++ b) = pyStrip m := by
  unfold pyStrip
  rw [List.dropWhile_append]
  by_cases h : (List.dropWhile isPySpace m).isEmpty
  · rw [if_pos h]
    have hb2 : List.dropWhile isPySpace b = [] :=
      List.dropWhile_eq_nil_iff.mpr (fun c hc => hb c hc)
    rw [hb2, List.isEmpty_iff.mp h]
  · rw [if_neg h, List.reverse_append]
    rw [dropWhile_append_of_all _ _ (fun c hc => hb c (List.mem_reverse.mp hc))]

/-- C7: the claim as stated is false on the code: only the dollar sign is
stripped, so a value wrapped in any other currency symbol fails to parse
even though the bare value succeeds. -/
theorem c7_counterexample :
    convert_amount "€12.5".toList = none ∧
    convert_amount "12.5".toList = some (PyDecimal.finite false 125 (-1)) := by
  constructor
  · decide
  · decide

/-- C7 (amended): convert_amount strips dollar signs and surrounding
whitespace before disambiguation, so wrapping any input in dollar signs and
whitespace never changes the result. -/
theorem c7_currency_stripping_amended (s a b : PyStr)
    (ha : ∀ c ∈ a, c = '$' ∨ isPySpace c = true)
    (hb : ∀ c ∈ b, c = '$' ∨ isPySpace c = true) :
    convert_amount (a ++ s ++ b) = convert_amount s := by
  have haf : ∀ c ∈ a.filter (fun c => decide (c ≠ '$')), isPySpace c = true := by
    intro c hc
    have h2 := List.mem_filter.mp hc
    rcases ha c h2.1 with h | h
    · exact absurd h (by simpa using h2.2)
    · exact h
  have hbf : ∀ c ∈ b.filter (fun c => decide (c ≠ '$')), isPySpace c = true := by
    intro c hc
    have h2 := List.mem_filter.mp hc
    rcases hb c h2.1 with h | h
    · exact absurd h (by simpa using h2.2)
    · exact h
  unfold convert_amount
  rw [show (a ++ s ++ b).filter (fun c => decide (c ≠ '$')) =
      a.filter (fun c => decide (c ≠ '$')) ++ (s.filter (fun c => decide (c ≠ '$')) ++
        b.filter (fun c => decide (c ≠ '$'))) by
    simp [List.filter_append]]
  rw [pyStrip_ws_append _ _ haf, pyStrip_append_ws _ _ hbf]

/-- C7 witness: a dollar sign and whitespace around the sample value leave
its parse unchanged. -/
theorem c7_witness :
    convert_amount (" $".toList ++ "12.5".toList ++ " ".toList) =
      convert_amount "12.5".toList :=
  c7_currency_stripping_amended "12.5".toList " $".toList " ".toList
    (by decide) (by decide)

theorem dval_digitChar (k : Nat) (h : k < 10) : dval (digitChar k) = k := by
  interval_cases k <;> rfl

theorem digitChar_spec (k : Nat) :
    (digitChar k).isDigit = true ∧ digitChar k ≠ '$' ∧ isPySpace (digitChar k) = false ∧
    digitChar k ≠ ',' ∧ digitChar k ≠ '.' ∧ digitChar k ≠ '_' ∧
    digitChar k ≠ 'e' ∧ digitChar k ≠ 'E' ∧ digitChar k ≠ '+' ∧ digitChar k ≠ '-' ∧
    Char.toLower (digitChar k) = digitChar k ∧ digitChar k ≠ 'n' ∧
    digitChar k ≠ 'i' ∧ digitChar k ≠ 's' := by
  match k with
  | 0 | 1 | 2 | 3 | 4 | 5 | 6 | 7 | 8 => decide
  | n + 9 =>
    have h : digitChar (n + 9) = '9' := rfl
    rw [h]
    decide

theorem natReprAux_mem (fuel n : Nat) :
    ∀ c ∈ natReprAux fuel n, ∃ k, c = digitChar k := by
  induction fuel generalizing n with
  | zero => simp [natReprAux]
  | succ fuel ih =>
    intro c hc
    rw [natReprAux] at hc
    by_cases h : n < 10
    · rw [if_pos h] at hc
      simp at hc
      exact ⟨n, hc⟩
    · rw [if_neg h] at hc
      rcases List.mem_append.mp hc with hx | hx
      · exact ih (n / 10) c hx
      · simp at hx
        exact ⟨n % 10, hx⟩

theorem natRepr_mem (n : Nat) : ∀ c ∈ natRepr n, ∃ k, c = digitChar k :=
  natReprAux_mem (n + 1) n

theorem natReprAux_head (fuel n : Nat) :
    ∃ k t, natReprAux (fuel + 1) n = digitChar k :: t := by
  induction fuel generalizing n with
  | zero =>
    rw [natReprAux]
    by_cases h : n < 10
    · exact ⟨n, [], by rw [if_pos h]⟩
    · exact ⟨n % 10, [], by rw [if_neg h]; rfl⟩
  | succ fuel ih =>
    rw [natReprAux]
    by_cases h : n < 10
    · exact ⟨n, [], by rw [if_pos h]⟩
    · obtain ⟨k, t, ht⟩ := ih (n / 10)
      exact ⟨k, t ++ [digitChar (n % 10)], by rw [if_neg h, ht]; rfl⟩

theorem natRepr_head (n : Nat) : ∃ k t, natRepr n = digitChar k :: t :=
  natReprAux_head n n

theorem digitsVal_from (i : Nat) (l : PyStr) :
    l.foldl (fun a c => 10 * a + dval c) i = i * 10 ^ l.length + digitsVal l := by
  induction l generalizing i with
  | nil => simp [digitsVal]
  | cons c l ih =>
    have h1 : digitsVal (c :: l) = dval c * 10 ^ l.length + digitsVal l := by
      calc digitsVal (c :: l)
          = List.foldl (fun a c => 10 * a + dval c) (10 * 0 + dval c) l := rfl
        _ = (10 * 0 + dval c) * 10 ^ l.length + digitsVal l := ih _
        _ = dval c * 10 ^ l.length + digitsVal l := by ring
    calc List.foldl (fun a c => 10 * a + dval c) i (c :: l)
        = List.foldl (fun a c => 10 * a + dval c) (10 * i + dval c) l := rfl
      _ = (10 * i + dval c) * 10 ^ l.length + digitsVal l := ih _
      _ = i * 10 ^ (c :: l).length + digitsVal (c :: l) := by
          rw [h1, List.length_cons]
          ring

theorem digitsVal_append (x y : PyStr) :
    digitsVal (x ++ y) = digitsVal x * 10 ^ y.length + digitsVal y := by
  unfold digitsVal
  rw [List.foldl_append]
  exact digitsVal_from _ y

theorem digitsVal_natReprAux (fuel n : Nat) (h : n < fuel) :
    digitsVal (natReprAux fuel n) = n := by
  induction fuel generalizing n with
  | zero => omega
  | succ fuel ih =>
    rw [natReprAux]
    by_cases h10 : n < 10
    · rw [if_pos h10]
      show 10 * 0 + dval (digitChar n) = n
      rw [dval_digitChar n h10]
      omega
    · rw [if_neg h10, digitsVal_append]
      have hlt : n / 10 < fuel := by
        have := Nat.div_lt_self (by omega : 0 < n) (by omega : 1 < 10)
        omega
      rw [ih (n / 10) hlt]
      show n / 10 * 10 ^ 1 + (10 * 0 + dval (digitChar (n % 10))) = n
      rw [dval_digitChar (n % 10) (Nat.mod_lt n (by omega))]
      omega

theorem digitsVal_natRepr (n : Nat) : digitsVal (natRepr n) = n :=
  digitsVal_natReprAux (n + 1) n (Nat.lt_succ_self n)

theorem digitsVal_pad2 (m : Nat) (h : m < 100) : digitsVal (pad2 m) = m := by
  unfold pad2
  have h1 : m / 10 % 10 = m / 10 := Nat.mod_eq_of_lt (by omega)
  show 10 * (10 * 0 + dval (digitChar (m / 10 % 10))) + dval (digitChar (m % 10)) = m
  rw [h1, dval_digitChar (m / 10) (by omega), dval_digitChar (m % 10) (Nat.mod_lt m (by omega))]
  omega

theorem splitFirst_of_none (p : Char → Bool) (l : PyStr) (h : ∀ c ∈ l, p c = false) :
    splitFirst p l = (l, none) := by
  induction l with
  | nil => rfl
  | cons c l ih =>
    rw [splitFirst, if_neg (by simp [h c (List.mem_cons_self c l)])]
    rw [ih (fun x hx => h x (List.mem_cons_of_mem c hx))]

theorem splitFirst_at (p : Char → Bool) (l r : PyStr) (c : Char)
    (hl : ∀ x ∈ l, p x = false) (hc : p c = true) :
    splitFirst p (l ++ c :: r) = (l, some r) := by
  induction l with
  | nil => simp [splitFirst, hc]
  | cons x l ih =>
    rw [List.cons_append, splitFirst, if_neg (by simp [hl x (List.mem_cons_self x l)])]
    rw [ih (fun y hy => hl y (List.mem_cons_of_mem x hy))]

theorem pyStrip_of_no_space (l : PyStr) (h : ∀ c ∈ l, isPySpace c = false) :
    pyStrip l = l := by
  have hd : ∀ m : PyStr, (∀ c ∈ m, isPySpace c = false) →
      List.dropWhile isPySpace m = m := by
    intro m hm
    cases m with
    | nil => rfl
    | cons c t =>
      rw [List.dropWhile_cons, if_neg (by simp [hm c (List.mem_cons_self c t)])]
  unfold pyStrip
  rw [hd l h, hd _ (fun c hc => h c (List.mem_reverse.mp hc)), List.reverse_reverse]

theorem digitChar_isDigit (k : Nat) : (digitChar k).isDigit = true :=
  (digitChar_spec k).1

theorem digitChar_ne_dollar (k : Nat) : digitChar k ≠ '$' :=
  (digitChar_spec k).2.1

theorem digitChar_no_space (k : Nat) : isPySpace (digitChar k) = false :=
  (digitChar_spec k).2.2.1

theorem digitChar_ne_comma (k : Nat) : digitChar k ≠ ',' :=
  (digitChar_spec k).2.2.2.1

theorem digitChar_ne_dot (k : Nat) : digitChar k ≠ '.' :=
  (digitChar_spec k).2.2.2.2.1

theorem digitChar_ne_und (k : Nat) : digitChar k ≠ '_' :=
  (digitChar_spec k).2.2.2.2.2.1

theorem digitChar_ne_exp_low (k : Nat) : digitChar k ≠ 'e' :=
  (digitChar_spec k).2.2.2.2.2.2.1

theorem digitChar_ne_exp_up (k : Nat) : digitChar k ≠ 'E' :=
  (digitChar_spec k).2.2.2.2.2.2.2.1

theorem digitChar_ne_plus (k : Nat) : digitChar k ≠ '+' :=
  (digitChar_spec k).2.2.2.2.2.2.2.2.1

theorem digitChar_ne_minus (k : Nat) : digitChar k ≠ '-' :=
  (digitChar_spec k).2.2.2.2.2.2.2.2.2.1

theorem digitChar_toLower (k : Nat) : Char.toLower (digitChar k) = digitChar k :=
  (digitChar_spec k).2.2.2.2.2.2.2.2.2.2.1

theorem digitChar_ne_n (k : Nat) : digitChar k ≠ 'n' :=
  (digitChar_spec k).2.2.2.2.2.2.2.2.2.2.2.1

theorem digitChar_ne_i (k : Nat) : digitChar k ≠ 'i' :=
  (digitChar_spec k).2.2.2.2.2.2.2.2.2.2.2.2.1

theorem digitChar_ne_s (k : Nat) : digitChar k ≠ 's' :=
  (digitChar_spec k).2.2.2.2.2.2.2.2.2.2.2.2.2

theorem parseSpecial_digit_head (sign : Bool) (k : Nat) (t : PyStr) :
    parseSpecial sign (digitChar k :: t) = none := by
  unfold parseSpecial
  have hlow : (digitChar k :: t).map Char.toLower =
      digitChar k :: t.map Char.toLower := by
    simp [digitChar_toLower]
  rw [hlow]
  have h1 : ¬(digitChar k :: t.map Char.toLower = "inf".toList ∨
      digitChar k :: t.map Char.toLower = "infinity".toList) := by
    rintro (h | h)
    · have e1 : "inf".toList = 'i' :: ['n', 'f'] := rfl
      rw [e1] at h
      injection h with h h2
      exact digitChar_ne_i k h
    · have e1 : "infinity".toList = 'i' :: ['n', 'f', 'i', 'n', 'i', 't', 'y'] := rfl
      rw [e1] at h
      injection h with h h2
      exact digitChar_ne_i k h
  rw [if_neg h1]
  have h2 : ¬((digitChar k :: t.map Char.toLower).take 3 = "nan".toList ∧
      ((digitChar k :: t.map Char.toLower).drop 3).all Char.isDigit = true) := by
    rintro ⟨h, _⟩
    rw [List.take_succ_cons] at h
    have e1 : "nan".toList = 'n' :: ['a', 'n'] := rfl
    rw [e1] at h
    injection h with h h2
    exact digitChar_ne_n k h
  rw [if_neg h2]
  have h3 : ¬((digitChar k :: t.map Char.toLower).take 4 = "snan".toList ∧
      ((digitChar k :: t.map Char.toLower).drop 4).all Char.isDigit = true ∧
      (digitChar k :: t.map Char.toLower).drop 4 ≠ []) := by
    rintro ⟨h, _, _⟩
    rw [List.take_succ_cons] at h
    have e1 : "snan".toList = 's' :: ['n', 'a', 'n'] := rfl
    rw [e1] at h
    injection h with h h2
    exact digitChar_ne_s k h
  rw [if_neg h3]

theorem pyDecimalParse_plain (sg : Bool) (ip fp : PyStr)
    (hip : ∀ c ∈ ip, ∃ k, c = digitChar k) (hfp : ∀ c ∈ fp, ∃ k, c = digitChar k)
    (hip0 : ip ≠ []) :
    pyDecimalParse ((if sg then ['-'] else []) ++ ip ++ '.' :: fp) =
      some (PyDecimal.finite sg (digitsVal (ip ++ fp)) (-(fp.length : Int))) := by
  obtain ⟨c0, ip', rfl⟩ : ∃ c0 ip', ip = c0 :: ip' := by
    cases ip with
    | nil => exact absurd rfl hip0
    | cons a b => exact ⟨a, b, rfl⟩
  obtain ⟨k0, rfl⟩ : ∃ k0, c0 = digitChar k0 :=
    hip c0 (List.mem_cons_self c0 ip')
  have hmemL : ∀ c ∈ digitChar k0 :: (ip' ++ '.' :: fp),
      (∃ k, c = digitChar k) ∨ c = '.' := by
    intro c hc
    rcases List.mem_cons.mp hc with rfl | hc
    · exact Or.inl ⟨k0, rfl⟩
    · rcases List.mem_append.mp hc with h | h
      · exact Or.inl (hip c (List.mem_cons_of_mem _ h))
      · rcases List.mem_cons.mp h with rfl | h
        · exact Or.inr rfl
        · exact Or.inl (hfp c h)
  have hnospaceL : ∀ c ∈ digitChar k0 :: (ip' ++ '.' :: fp), isPySpace c = false := by
    intro c hc
    rcases hmemL c hc with ⟨k, rfl⟩ | rfl
    · exact digitChar_no_space k
    · decide
  have hfilL : (digitChar k0 :: (ip' ++ '.' :: fp)).filter (fun c => decide (c ≠ '_')) =
      digitChar k0 :: (ip' ++ '.' :: fp) := by
    apply List.filter_eq_self.mpr
    intro c hc
    rcases hmemL c hc with ⟨k, rfl⟩ | rfl
    · simp [digitChar_ne_und k]
    · decide
  have hspecial : ∀ b : Bool, parseSpecial b (digitChar k0 :: (ip' ++ '.' :: fp)) = none :=
    fun b => parseSpecial_digit_head b k0 _
  have hnoexp : ∀ c ∈ digitChar k0 :: (ip' ++ '.' :: fp),
      (decide (c = 'e') || decide (c = 'E')) = false := by
    intro c hc
    rcases hmemL c hc with ⟨k, rfl⟩ | rfl
    · simp [digitChar_ne_exp_low k, digitChar_ne_exp_up k]
    · decide
  have hsplit : splitFirst (fun c => c = 'e' || c = 'E') (digitChar k0 :: (ip' ++ '.' :: fp)) =
      (digitChar k0 :: (ip' ++ '.' :: fp), none) :=
    splitFirst_of_none _ _ hnoexp
  have hnodot : ∀ x ∈ digitChar k0 :: ip', decide (x = '.') = false := by
    intro x hx
    obtain ⟨k, rfl⟩ := hip x hx
    simp [digitChar_ne_dot k]
  have hdigits1 : (digitChar k0 :: ip').all Char.isDigit = true := by
    apply List.all_eq_true.mpr
    intro x hx
    obtain ⟨k, rfl⟩ := hip x hx
    exact digitChar_isDigit k
  have hdigits2 : fp.all Char.isDigit = true := by
    apply List.all_eq_true.mpr
    intro x hx
    obtain ⟨k, rfl⟩ := hfp x hx
    exact digitChar_isDigit k
  have hmant : parseMantissa (digitChar k0 :: (ip' ++ '.' :: fp)) =
      some (digitsVal ((digitChar k0 :: ip') ++ fp), fp.length) := by
    unfold parseMantissa
    rw [show digitChar k0 :: (ip' ++ '.' :: fp) = (digitChar k0 :: ip') ++ '.' :: fp from
      (List.cons_append _ _ _).symm]
    rw [splitFirst_at _ _ _ _ hnodot (by decide)]
    simp [hdigits1, hdigits2]
  cases sg with
  | false =>
    have hL : (if false = true then ['-'] else []) ++ (digitChar k0 :: ip') ++ '.' :: fp =
        digitChar k0 :: (ip' ++ '.' :: fp) := by
      simp
    rw [hL]
    have hsg : pySign (digitChar k0 :: (ip' ++ '.' :: fp)) =
        (false, digitChar k0 :: (ip' ++ '.' :: fp)) := by
      rw [pySign, if_neg (digitChar_ne_plus k0), if_neg (digitChar_ne_minus k0)]
    simp only [pyDecimalParse]
    rw [pyStrip_of_no_space _ hnospaceL, hfilL, hsg]
    simp only [hspecial, hsplit, hmant, Option.map]
  | true =>
    have hL : (if true = true then ['-'] else []) ++ (digitChar k0 :: ip') ++ '.' :: fp =
        '-' :: digitChar k0 :: (ip' ++ '.' :: fp) := by
      simp
    rw [hL]
    have hnospaceM : ∀ c ∈ '-' :: digitChar k0 :: (ip' ++ '.' :: fp),
        isPySpace c = false := by
      intro c hc
      rcases List.mem_cons.mp hc with rfl | hc
      · decide
      · exact hnospaceL c hc
    have hfilM : ('-' :: digitChar k0 :: (ip' ++ '.' :: fp)).filter
        (fun c => decide (c ≠ '_')) = '-' :: digitChar k0 :: (ip' ++ '.' :: fp) := by
      apply List.filter_eq_self.mpr
      intro c hc
      rcases List.mem_cons.mp hc with rfl | hc
      · decide
      · rcases hmemL c hc with ⟨k, rfl⟩ | rfl
        · simp [digitChar_ne_und k]
        · decide
    have hsg : pySign ('-' :: digitChar k0 :: (ip' ++ '.' :: fp)) =
        (true, digitChar k0 :: (ip' ++ '.' :: fp)) := by
      rw [pySign, if_neg (by decide), if_pos rfl]
    simp only [pyDecimalParse]
    rw [pyStrip_of_no_space _ hnospaceM, hfilM, hsg]
    simp only [hspecial, hsplit, hmant, Option.map]

theorem pad2_mem (m : Nat) : ∀ c ∈ pad2 m, ∃ k, c = digitChar k := by
  intro c hc
  unfold pad2 at hc
  rcases List.mem_cons.mp hc with rfl | hc
  · exact ⟨_, rfl⟩
  · rcases List.mem_cons.mp hc with rfl | hc
    · exact ⟨_, rfl⟩
    · simp at hc

theorem convert_amount_format (sg : Bool) (n : Nat) :
    convert_amount ((if sg then ['-'] else []) ++ natRepr (n / 100) ++ '.' :: pad2 (n % 100)) =
      some (PyDecimal.finite sg n (-2)) := by
  have hip := natRepr_mem (n / 100)
  have hfp := pad2_mem (n % 100)
  have hip0 : natRepr (n / 100) ≠ [] := by
    obtain ⟨k, t, ht⟩ := natRepr_head (n / 100)
    rw [ht]
    exact List.cons_ne_nil _ _
  have hmemS : ∀ c ∈ (if sg then ['-'] else []) ++ natRepr (n / 100) ++ '.' :: pad2 (n % 100),
      c = '-' ∨ (∃ k, c = digitChar k) ∨ c = '.' := by
    intro c hc
    rcases List.mem_append.mp hc with h | h
    · rcases List.mem_append.mp h with h | h
      · cases sg with
        | true =>
          simp at h
          exact Or.inl h
        | false => simp at h
      · exact Or.inr (Or.inl (hip c h))
    · rcases List.mem_cons.mp h with rfl | h
      · exact Or.inr (Or.inr rfl)
      · exact Or.inr (Or.inl (hfp c h))
  have hdollar : ((if sg then ['-'] else []) ++ natRepr (n / 100) ++
      '.' :: pad2 (n % 100)).filter (fun c => decide (c ≠ '$')) =
      (if sg then ['-'] else []) ++ natRepr (n / 100) ++ '.' :: pad2 (n % 100) := by
    apply List.filter_eq_self.mpr
    intro c hc
    rcases hmemS c hc with rfl | ⟨k, rfl⟩ | rfl
    · decide
    · simp [digitChar_ne_dollar k]
    · decide
  have hnsp : pyStrip ((if sg then ['-'] else []) ++ natRepr (n / 100) ++
      '.' :: pad2 (n % 100)) =
      (if sg then ['-'] else []) ++ natRepr (n / 100) ++ '.' :: pad2 (n % 100) := by
    apply pyStrip_of_no_space
    intro c hc
    rcases hmemS c hc with rfl | ⟨k, rfl⟩ | rfl
    · decide
    · exact digitChar_no_space k
    · decide
  have hnc : ',' ∉ (if sg then ['-'] else []) ++ natRepr (n / 100) ++
      '.' :: pad2 (n % 100) := by
    intro hmem
    rcases hmemS ',' hmem with h | ⟨k, h⟩ | h
    · exact absurd h (by decide)
    · exact digitChar_ne_comma k h.symm
    · exact absurd h (by decide)
  have hC : disambiguateSeparators ((if sg then ['-'] else []) ++ natRepr (n / 100) ++
      '.' :: pad2 (n % 100)) =
      (if sg then ['-'] else []) ++ natRepr (n / 100) ++ '.' :: pad2 (n % 100) := by
    unfold disambiguateSeparators
    rw [if_neg (fun h => hnc h.1), if_neg hnc]
  have hcoeff : digitsVal (natRepr (n / 100) ++ pad2 (n % 100)) = n := by
    rw [digitsVal_append, digitsVal_natRepr,
      digitsVal_pad2 _ (Nat.mod_lt _ (by norm_num))]
    have hl : (pad2 (n % 100)).length = 2 := rfl
    rw [hl]
    omega
  unfold convert_amount
  rw [hdollar, hnsp, hC, pyDecimalParse_plain sg _ _ hip hfp hip0, hcoeff]
  rw [show ((pad2 (n % 100)).length : Int) = 2 from rfl]

/-- C9: the claim as stated is false on the code: the parsed amount 1.234
formats to two decimals as 1.23, which re-parses to a different numeric
value. -/
theorem c9_counterexample :
    convert_amount "1.234".toList = some (PyDecimal.finite false 1234 (-3)) ∧
    format2f (PyDecimal.finite false 1234 (-3)) = "1.23".toList ∧
    convert_amount "1.23".toList = some (PyDecimal.finite false 123 (-2)) ∧
    PyDecimal.valQ (PyDecimal.finite false 123 (-2)) ≠
      PyDecimal.valQ (PyDecimal.finite false 1234 (-3)) := by
  refine ⟨by decide, by decide, by decide, ?_⟩
  simp only [PyDecimal.valQ, if_neg (by decide : ¬ false = true), Option.some.injEq]
  intro h
  rw [show ((10 : ℚ) ^ (-2 : ℤ)) = 1 / 100 by norm_num,
    show ((10 : ℚ) ^ (-3 : ℤ)) = 1 / 1000 by norm_num] at h
  norm_num at h

/-- C9 (amended): for every finite amount the parser can produce whose value
has at most two fractional digits (its value times 100 is a natural number
in magnitude), formatting to two decimals and re-parsing yields the original
numeric value. -/
theorem c9_roundtrip_amended (s : PyStr) (sg : Bool) (c : Nat) (e : Int) (n : Nat)
    (hsrc : convert_amount s = some (PyDecimal.finite sg c e))
    (hn : (c : ℚ) * (10 : ℚ) ^ e * 100 = (n : ℚ)) :
    (convert_amount (format2f (PyDecimal.finite sg c e))).bind PyDecimal.valQ =
      PyDecimal.valQ (PyDecimal.finite sg c e) := by
  have hten : (10 : ℚ) ≠ 0 := by norm_num
  have hNdef : (if e ≥ -2 then c * 10 ^ (e + 2).toNat
      else roundHalfEven c (10 ^ (-(e + 2)).toNat)) = n := by
    by_cases he : e ≥ -2
    · rw [if_pos he]
      have hpow : ((10 : ℚ) ^ (e + 2).toNat = (10 : ℚ) ^ ((e : ℤ) + 2)) := by
        rw [← zpow_natCast, Int.toNat_of_nonneg (by omega)]
      have h1 : ((c * 10 ^ (e + 2).toNat : ℕ) : ℚ) = (n : ℚ) := by
        push_cast
        rw [hpow, zpow_add₀ hten, show ((10 : ℚ) ^ (2 : ℤ)) = 100 by norm_num]
        rw [← hn]
        ring
      exact_mod_cast h1
    · rw [if_neg he]
      set K := (-(e + 2)).toNat with hK
      have heK : e = -(K : ℤ) - 2 := by omega
      have hone : (10 : ℚ) ^ e * 100 * (10 : ℚ) ^ (K : ℤ) = 1 := by
        have h10 : (10 : ℚ) ^ e * (10 : ℚ) ^ (K : ℤ) = (10 : ℚ) ^ ((-2) : ℤ) := by
          rw [← zpow_add₀ hten]
          congr 1
          omega
        calc (10 : ℚ) ^ e * 100 * (10 : ℚ) ^ (K : ℤ)
            = ((10 : ℚ) ^ e * (10 : ℚ) ^ (K : ℤ)) * 100 := by ring
          _ = (10 : ℚ) ^ ((-2) : ℤ) * 100 := by rw [h10]
          _ = 1 := by
              rw [show ((10 : ℚ) ^ ((-2) : ℤ)) = 1 / 100 by norm_num]
              norm_num
      have h2 : (c : ℚ) = (n : ℚ) * (10 : ℚ) ^ (K : ℤ) := by
        calc (c : ℚ) = (c : ℚ) * ((10 : ℚ) ^ e * 100 * (10 : ℚ) ^ (K : ℤ)) := by
              rw [hone]
              ring
          _ = ((c : ℚ) * (10 : ℚ) ^ e * 100) * (10 : ℚ) ^ (K : ℤ) := by ring
          _ = (n : ℚ) * (10 : ℚ) ^ (K : ℤ) := by rw [hn]
      have hc2 : c = n * 10 ^ K := by
        have h3 : ((n * 10 ^ K : ℕ) : ℚ) = (c : ℚ) := by
          push_cast
          rw [h2, ← zpow_natCast (10 : ℚ) K]
        exact_mod_cast h3.symm
      rw [hc2]
      unfold roundHalfEven
      have hpowpos : 0 < 10 ^ K := Nat.pos_pow_of_pos K (by norm_num)
      rw [Nat.mul_mod_left, Nat.mul_div_cancel _ hpowpos]
      rw [if_pos (by omega : 2 * 0 < 10 ^ K)]
  have hfmt : format2f (PyDecimal.finite sg c e) =
      (if sg then ['-'] else []) ++ natRepr (n / 100) ++ '.' :: pad2 (n % 100) := by
    simp only [format2f]
    rw [hNdef]
  rw [hfmt, convert_amount_format sg n]
  show PyDecimal.valQ (PyDecimal.finite sg n (-2)) = PyDecimal.valQ (PyDecimal.finite sg c e)
  simp only [PyDecimal.valQ, Option.some.injEq]
  have hval : (n : ℚ) * (10 : ℚ) ^ ((-2) : ℤ) = (c : ℚ) * (10 : ℚ) ^ e := by
    rw [← hn]
    have h100 : (100 : ℚ) * (10 : ℚ) ^ ((-2) : ℤ) = 1 := by
      rw [show ((10 : ℚ) ^ ((-2) : ℤ)) = 1 / 100 by norm_num]
      norm_num
    calc (c : ℚ) * (10 : ℚ) ^ e * 100 * (10 : ℚ) ^ ((-2) : ℤ)
        = (c : ℚ) * (10 : ℚ) ^ e * (100 * (10 : ℚ) ^ ((-2) : ℤ)) := by ring
      _ = (c : ℚ) * (10 : ℚ) ^ e := by
          rw [h100]
          ring
  calc (if sg then (-1 : ℚ) else 1) * n * (10 : ℚ) ^ ((-2) : ℤ)
      = (if sg then (-1 : ℚ) else 1) * ((n : ℚ) * (10 : ℚ) ^ ((-2) : ℤ)) := by ring
    _ = (if sg then (-1 : ℚ) else 1) * ((c : ℚ) * (10 : ℚ) ^ e) := by rw [hval]
    _ = (if sg then (-1 : ℚ) else 1) * c * (10 : ℚ) ^ e := by ring

/-- C9 witness: the round trip on the parsed value of 1.23. -/
theorem c9_witness :
    (convert_amount (format2f (PyDecimal.finite false 123 (-2)))).bind PyDecimal.valQ =
      PyDecimal.valQ (PyDecimal.finite false 123 (-2)) :=
  c9_roundtrip_amended "1.23".toList false 123 (-2) 123 (by decide)
    (by rw [show ((10 : ℚ) ^ ((-2) : ℤ)) = 1 / 100 by norm_num]; norm_num)
